import Mathlib

/-
Verification of the Novacal signal-processing core against its specification.

The Go sources are shallowly embedded in Lean 4.  Machine floating-point
values are modelled as exact rationals; byte-level file decoding is modelled
on byte lists, keeping the bit patterns as natural numbers (the IEEE-754
bits-to-float map is a bijection and no settled claim depends on rounding).
Go float division by zero yields non-finite values (Inf or NaN) and never an
error or panic; in the rational model such a quotient is 0.  The claims
settled below never depend on the value of such a quotient, only on the fact
that a value (rather than an error) is produced.
-/

namespace Novacal

/-! Embedding of backend/timeseries/timeseries.go -/

/-- GetTotalFileLength from backend/timeseries/timeseries.go: sums
Size()/4 over the given files, four bytes per float32 sample. -/
def GetTotalFileLength (fileSizes : List Nat) : Nat :=
  fileSizes.foldl (fun total size => total + size / 4) 0

/-- Splits a byte stream into its consecutive complete groups of w bytes;
trailing incomplete bytes are dropped.  Structural recursion on a fuel
bound so that the definition evaluates by kernel reduction. -/
def chunkBytesAux (w : Nat) : Nat → List Nat → List (List Nat)
  | 0, _ => []
  | fuel + 1, bytes =>
      if 0 < w ∧ w ≤ bytes.length then
        bytes.take w :: chunkBytesAux w fuel (bytes.drop w)
      else []

def chunkBytes (w : Nat) (bytes : List Nat) : List (List Nat) :=
  chunkBytesAux w bytes.length bytes

/-- The unsigned integer with the given little-endian byte group. -/
def leUint (bytes : List Nat) : Nat :=
  bytes.foldr (fun b acc => b + 256 * acc) 0

/-- ReadBinaryFile from backend/timeseries/timeseries.go, the full-file read
used by the FFT request path in backend/main.go.  It allocates Size()/8
float64 slots and fills them with binary.Read in little-endian order: the
file is consumed in consecutive complete 8-byte groups, each decoded as the
float64 whose IEEE-754 bit pattern is the little-endian integer of the
group.  We keep the bit pattern itself. -/
def ReadBinaryFile (bytes : List Nat) : List Nat :=
  (chunkBytes 8 bytes).map leUint

theorem chunkBytesAux_length (w : Nat) :
    ∀ (fuel : Nat) (bytes : List Nat), bytes.length ≤ fuel → 0 < w →
      (chunkBytesAux w fuel bytes).length = bytes.length / w := by
  intro fuel
  induction fuel with
  | zero =>
      intro bytes hle _
      have hb : bytes.length = 0 := Nat.le_zero.mp hle
      simp [chunkBytesAux, hb]
  | succ fuel ih =>
      intro bytes hle hw
      by_cases hcase : w ≤ bytes.length
      · have hrec := ih (bytes.drop w) (by simp; omega) hw
        have hdiv : bytes.length / w = (bytes.length - w) / w + 1 :=
          Nat.div_eq_sub_div hw hcase
        simp [chunkBytesAux, hw, hcase, hrec, hdiv]
      · have hlt : bytes.length < w := Nat.lt_of_not_le hcase
        simp [chunkBytesAux, hcase, Nat.div_eq_of_lt hlt]

theorem ReadBinaryFile_length (bytes : List Nat) :
    (ReadBinaryFile bytes).length = bytes.length / 8 := by
  simp [ReadBinaryFile, chunkBytes,
    chunkBytesAux_length 8 bytes.length bytes le_rfl (by norm_num)]

/-- Claim C1: the specification states that every read decodes consecutive
4-byte little-endian float32 samples, so a full read returns size/4 samples
(100 for a 400-byte file), and in particular that ReadBinaryFile, the
full-file read of the FFT request path, does so.  The program itself counts
samples as size/4 in GetTotalFileLength, but ReadBinaryFile decodes 8-byte
float64 groups and returns size/8 samples: on a 400-byte file the sample
count is 100 while the full read yields only 50 values, each made of two
adjacent float32 bit patterns. -/
theorem C1_full_read_miscount :
    GetTotalFileLength [400] = 100 ∧
      (ReadBinaryFile (List.replicate 400 0)).length = 50 := by
  constructor
  · rfl
  · rw [ReadBinaryFile_length, List.length_replicate]

/-! Embedding of dynamicDownsample from backend/timeseries/timeseries.go.
The float literal 0.05 of the source is modelled as the exact rational
5/100; every comparison settled below is robust to that rounding. -/

/-- The per-bin scan state of dynamicDownsample: running minimum and
maximum with their indices, and the running sum and count. -/
structure BinScan where
  minVal : ℚ
  minIdx : Nat
  maxVal : ℚ
  maxIdx : Nat
  sum : ℚ
  count : Nat
deriving DecidableEq

/-- One iteration of the scan loop of dynamicDownsample over index j:
accumulate the sum and count, then update the minimum on val < minVal and
the maximum on val > maxVal. -/
def binScanStep (values : List ℚ) (s : BinScan) (j : Nat) : BinScan :=
  { minVal := if values.getD j 0 < s.minVal then values.getD j 0 else s.minVal
    minIdx := if values.getD j 0 < s.minVal then j else s.minIdx
    maxVal := if s.maxVal < values.getD j 0 then values.getD j 0 else s.maxVal
    maxIdx := if s.maxVal < values.getD j 0 then j else s.maxIdx
    sum := s.sum + values.getD j 0
    count := s.count + 1 }

/-- The initial scan state of a bin: its first point is minimum, maximum
and sum, with count 1. -/
def binScanInit (values : List ℚ) (start : Nat) : BinScan :=
  { minVal := values.getD start 0, minIdx := start
    maxVal := values.getD start 0, maxIdx := start
    sum := values.getD start 0, count := 1 }

/-- The scan over one bin [start, e): initialised from the first point of
the bin, then folded over the remaining indices start+1, ..., e-1. -/
def binScan (values : List ℚ) (start e : Nat) : BinScan :=
  (List.range' (start + 1) (e - (start + 1))).foldl (binScanStep values)
    (binScanInit values start)

/-- The candidate indices a bin emits, in the order the source appends
them: the first point of the bin when neither extremum sits on it, the
minimum index when it differs from the start and deviates from the bin
average by more than 5 percent of the bin range, and the maximum index
under the analogous conditions plus being distinct from the minimum. -/
def binIndices (values : List ℚ) (start e : Nat) : List Nat :=
  let s := binScan values start e
  let avg := s.sum / (s.count : ℚ)
  let threshold := 5 / 100 * |s.maxVal - s.minVal|
  (if s.minIdx ≠ start ∧ s.maxIdx ≠ start then [start] else []) ++
    ((if s.minIdx ≠ start ∧ threshold < |s.minVal - avg| then [s.minIdx] else []) ++
      (if s.maxIdx ≠ start ∧ s.maxIdx ≠ s.minIdx ∧ threshold < |s.maxVal - avg| then
        [s.maxIdx] else []))

/-- The points one bin [start, e) contributes to the downsampled output:
the selected indices sorted chronologically, each emitted as the pair
(times[idx], values[idx]), followed by the synthetic average point when at
least one index was emitted and the average time strictly follows the last
emitted time. -/
def binPoints (times values : List ℚ) (start e : Nat) : List (ℚ × ℚ) :=
  let s := binScan values start e
  let avg := s.sum / (s.count : ℚ)
  let avgTime := (times.getD start 0 + times.getD (e - 1) 0) / 2
  let sorted := List.insertionSort (· ≤ ·) (binIndices values start e)
  let pts := sorted.map (fun idx => (times.getD idx 0, values.getD idx 0))
  match sorted.getLast? with
  | none => pts
  | some lastIdx =>
      if times.getD lastIdx 0 < avgTime then pts ++ [(avgTime, avg)] else pts

/-- dynamicDownsample from backend/timeseries/timeseries.go: unchanged
input for at most 2 points or binSize at most 1, otherwise the
concatenation of the per-bin contributions over consecutive bins of
binSize points, the last bin possibly shorter. -/
def dynamicDownsample (times values : List ℚ) (binSize : Nat) : List ℚ × List ℚ :=
  if times.length ≤ 2 ∨ binSize ≤ 1 then (times, values)
  else
    let pts := ((List.range ((times.length + binSize - 1) / binSize)).map
        (fun k => k * binSize)).foldl
      (fun acc start =>
        acc ++ binPoints times values start (min (start + binSize) times.length)) []
    (pts.map Prod.fst, pts.map Prod.snd)

/-- Claim C2, counterexample: a 5-point series downsampled with binSize 5
(which is at least the series length) is not returned unchanged — the
single bin emits only its maximum point. -/
theorem C2_counterexample :
    ([0, 1, 2, 3, 4] : List ℚ).length ≤ 5 ∧
      dynamicDownsample [0, 1, 2, 3, 4] [0, 1, 2, 3, 4] 5 ≠
        ([0, 1, 2, 3, 4], [0, 1, 2, 3, 4]) := by
  with_unfolding_all decide

/-- Claim C2, amended: dynamicDownsample returns the original series
unchanged exactly under the no-op guard of the code — whenever the series
has at most 2 points or binSize is at most 1; binSize at least the series
length does not by itself guarantee this. -/
theorem C2_noop_guard (times values : List ℚ) (binSize : Nat)
    (h : times.length ≤ 2 ∨ binSize ≤ 1) :
    dynamicDownsample times values binSize = (times, values) := by
  simp [dynamicDownsample, h]

theorem C2_witness :
    dynamicDownsample [0, 1] [1, 2] 5 = ([0, 1], [1, 2]) :=
  C2_noop_guard [0, 1] [1, 2] 5 (Or.inl (by decide))

/-- Claim C3, counterexample: a 5-point constant series with binSize 5 has
one non-empty bin, and that bin contributes 0 points (both extrema sit on
the bin start and no emission condition holds), so a bin can contribute
fewer than 1 point. -/
theorem C3_counterexample :
    2 < ([0, 1, 2, 3, 4] : List ℚ).length ∧ 1 < 5 ∧
      binPoints [0, 1, 2, 3, 4] [1, 1, 1, 1, 1] 0 5 = [] ∧
      dynamicDownsample [0, 1, 2, 3, 4] [1, 1, 1, 1, 1] 5 = ([], []) := by
  with_unfolding_all decide

theorem binIndices_length_le (values : List ℚ) (start e : Nat) :
    (binIndices values start e).length ≤ 3 := by
  simp only [binIndices, List.length_append]
  split <;> split <;> split <;> simp

/-- Claim C3, amended: every bin contributes at most 4 points to the
downsampled output (at most three selected indices plus the synthetic
average point); a bin may contribute 0 points. -/
theorem C3_bin_contribution_le_four (times values : List ℚ) (start e : Nat) :
    (binPoints times values start e).length ≤ 4 := by
  have hlen : (List.insertionSort (· ≤ ·) (binIndices values start e)).length ≤ 3 := by
    rw [List.length_insertionSort]
    exact binIndices_length_le values start e
  simp only [binPoints]
  split
  · simpa using hlen.trans (by norm_num)
  · split
    · simp only [List.length_append, List.length_map, List.length_singleton]
      omega
    · simpa using hlen.trans (by norm_num)

/-! Correctness of the per-bin extrema scan (claim C7). -/

theorem binScanFold_min (values : List ℚ) (L : List Nat) :
    ∀ s : BinScan,
      (L.foldl (binScanStep values) s).minVal ≤ s.minVal ∧
        (∀ j ∈ L, (L.foldl (binScanStep values) s).minVal ≤ values.getD j 0) ∧
        (((L.foldl (binScanStep values) s).minVal = s.minVal ∧
            (L.foldl (binScanStep values) s).minIdx = s.minIdx) ∨
          ((L.foldl (binScanStep values) s).minIdx ∈ L ∧
            (L.foldl (binScanStep values) s).minVal =
              values.getD ((L.foldl (binScanStep values) s).minIdx) 0)) := by
  induction L with
  | nil => intro s; simp
  | cons x L ih =>
      intro s
      obtain ⟨h1, h2, h3⟩ := ih (binScanStep values s x)
      rw [List.foldl_cons]
      by_cases hc : values.getD x 0 < s.minVal
      · have hv : (binScanStep values s x).minVal = values.getD x 0 := if_pos hc
        have hi : (binScanStep values s x).minIdx = x := if_pos hc
        refine ⟨?_, ?_, ?_⟩
        · rw [hv] at h1
          exact h1.trans hc.le
        · intro j hj
          rcases List.mem_cons.mp hj with rfl | hj
          · rw [hv] at h1; exact h1
          · exact h2 j hj
        · rcases h3 with ⟨he, hie⟩ | ⟨hm, he⟩
          · refine Or.inr ⟨?_, ?_⟩
            · rw [hie, hi]; exact List.mem_cons_self x L
            · rw [he, hv, hie, hi]
          · exact Or.inr ⟨List.mem_cons_of_mem x hm, he⟩
      · have hv : (binScanStep values s x).minVal = s.minVal := if_neg hc
        have hi : (binScanStep values s x).minIdx = s.minIdx := if_neg hc
        refine ⟨?_, ?_, ?_⟩
        · rw [hv] at h1; exact h1
        · intro j hj
          rcases List.mem_cons.mp hj with rfl | hj
          · rw [hv] at h1
            exact h1.trans (not_lt.mp hc)
          · exact h2 j hj
        · rcases h3 with ⟨he, hie⟩ | ⟨hm, he⟩
          · exact Or.inl ⟨he.trans hv, hie.trans hi⟩
          · exact Or.inr ⟨List.mem_cons_of_mem x hm, he⟩

theorem binScanFold_max (values : List ℚ) (L : List Nat) :
    ∀ s : BinScan,
      s.maxVal ≤ (L.foldl (binScanStep values) s).maxVal ∧
        (∀ j ∈ L, values.getD j 0 ≤ (L.foldl (binScanStep values) s).maxVal) ∧
        (((L.foldl (binScanStep values) s).maxVal = s.maxVal ∧
            (L.foldl (binScanStep values) s).maxIdx = s.maxIdx) ∨
          ((L.foldl (binScanStep values) s).maxIdx ∈ L ∧
            (L.foldl (binScanStep values) s).maxVal =
              values.getD ((L.foldl (binScanStep values) s).maxIdx) 0)) := by
  induction L with
  | nil => intro s; simp
  | cons x L ih =>
      intro s
      obtain ⟨h1, h2, h3⟩ := ih (binScanStep values s x)
      rw [List.foldl_cons]
      by_cases hc : s.maxVal < values.getD x 0
      · have hv : (binScanStep values s x).maxVal = values.getD x 0 := if_pos hc
        have hi : (binScanStep values s x).maxIdx = x := if_pos hc
        refine ⟨?_, ?_, ?_⟩
        · rw [hv] at h1
          exact hc.le.trans h1
        · intro j hj
          rcases List.mem_cons.mp hj with rfl | hj
          · rw [hv] at h1; exact h1
          · exact h2 j hj
        · rcases h3 with ⟨he, hie⟩ | ⟨hm, he⟩
          · refine Or.inr ⟨?_, ?_⟩
            · rw [hie, hi]; exact List.mem_cons_self x L
            · rw [he, hv, hie, hi]
          · exact Or.inr ⟨List.mem_cons_of_mem x hm, he⟩
      · have hv : (binScanStep values s x).maxVal = s.maxVal := if_neg hc
        have hi : (binScanStep values s x).maxIdx = s.maxIdx := if_neg hc
        refine ⟨?_, ?_, ?_⟩
        · rw [hv] at h1; exact h1
        · intro j hj
          rcases List.mem_cons.mp hj with rfl | hj
          · rw [hv] at h1
            exact (not_lt.mp hc).trans h1
          · exact h2 j hj
        · rcases h3 with ⟨he, hie⟩ | ⟨hm, he⟩
          · exact Or.inl ⟨he.trans hv, hie.trans hi⟩
          · exact Or.inr ⟨List.mem_cons_of_mem x hm, he⟩

theorem binScan_min_facts (values : List ℚ) (start e : Nat) (h : start < e) :
    start ≤ (binScan values start e).minIdx ∧ (binScan values start e).minIdx < e ∧
      values.getD (binScan values start e).minIdx 0 = (binScan values start e).minVal ∧
      ∀ j, start ≤ j → j < e → (binScan values start e).minVal ≤ values.getD j 0 := by
  obtain ⟨h1, h2, h3⟩ :=
    binScanFold_min values (List.range' (start + 1) (e - (start + 1))) (binScanInit values start)
  have hmem : ∀ j, j ∈ List.range' (start + 1) (e - (start + 1)) ↔ start + 1 ≤ j ∧ j < e := by
    intro j
    rw [List.mem_range'_1]
    omega
  unfold binScan
  refine ⟨?_, ?_, ?_, ?_⟩
  · rcases h3 with ⟨_, hie⟩ | ⟨hm, _⟩
    · rw [hie]; simp [binScanInit]
    · exact le_of_lt (Nat.lt_of_lt_of_le (Nat.lt_succ_self start) ((hmem _).mp hm).1)
  · rcases h3 with ⟨_, hie⟩ | ⟨hm, _⟩
    · rw [hie]; simpa [binScanInit] using h
    · exact ((hmem _).mp hm).2
  · rcases h3 with ⟨he, hie⟩ | ⟨_, he⟩
    · rw [hie, he]; simp [binScanInit]
    · exact he.symm
  · intro j hj1 hj2
    rcases Nat.eq_or_lt_of_le hj1 with rfl | hj
    · simpa [binScanInit] using h1
    · exact h2 j ((hmem j).mpr ⟨hj, hj2⟩)

theorem binScan_max_facts (values : List ℚ) (start e : Nat) (h : start < e) :
    start ≤ (binScan values start e).maxIdx ∧ (binScan values start e).maxIdx < e ∧
      values.getD (binScan values start e).maxIdx 0 = (binScan values start e).maxVal ∧
      ∀ j, start ≤ j → j < e → values.getD j 0 ≤ (binScan values start e).maxVal := by
  obtain ⟨h1, h2, h3⟩ :=
    binScanFold_max values (List.range' (start + 1) (e - (start + 1))) (binScanInit values start)
  have hmem : ∀ j, j ∈ List.range' (start + 1) (e - (start + 1)) ↔ start + 1 ≤ j ∧ j < e := by
    intro j
    rw [List.mem_range'_1]
    omega
  unfold binScan
  refine ⟨?_, ?_, ?_, ?_⟩
  · rcases h3 with ⟨_, hie⟩ | ⟨hm, _⟩
    · rw [hie]; simp [binScanInit]
    · exact le_of_lt (Nat.lt_of_lt_of_le (Nat.lt_succ_self start) ((hmem _).mp hm).1)
  · rcases h3 with ⟨_, hie⟩ | ⟨hm, _⟩
    · rw [hie]; simpa [binScanInit] using h
    · exact ((hmem _).mp hm).2
  · rcases h3 with ⟨he, hie⟩ | ⟨_, he⟩
    · rw [hie, he]; simp [binScanInit]
    · exact he.symm
  · intro j hj1 hj2
    rcases Nat.eq_or_lt_of_le hj1 with rfl | hj
    · simpa [binScanInit] using h1
    · exact h2 j ((hmem j).mpr ⟨hj, hj2⟩)

theorem bin_slice_mem (values : List ℚ) (start e : Nat) (hlen : e ≤ values.length) :
    ∀ j, start ≤ j → j < e → values.getD j 0 ∈ (values.drop start).take (e - start) := by
  intro j hj1 hj2
  have hjlen : j < values.length := lt_of_lt_of_le hj2 hlen
  have hslice : ((values.drop start).take (e - start)).length = e - start := by
    simp
    omega
  refine List.mem_iff_getElem.mpr ⟨j - start, by omega, ?_⟩
  have hidx : start + (j - start) = j := by omega
  rw [List.getElem_take, List.getElem_drop]
  simp only [hidx]
  exact (List.getD_eq_getElem values 0 hjlen).symm

theorem bin_slice_elem_idx (values : List ℚ) (start e : Nat) (hlen : e ≤ values.length) :
    ∀ a ∈ (values.drop start).take (e - start),
      ∃ j, start ≤ j ∧ j < e ∧ values.getD j 0 = a := by
  intro a ha
  obtain ⟨k, hk, heq⟩ := List.mem_iff_getElem.mp ha
  have hslice : ((values.drop start).take (e - start)).length = e - start := by
    simp
    omega
  rw [hslice] at hk
  refine ⟨start + k, Nat.le_add_right start k, by omega, ?_⟩
  rw [← heq, List.getElem_take, List.getElem_drop]
  exact List.getD_eq_getElem values 0 (by omega)

/-- Claim C7: for every bin [start, e) of the input series, the minimum and
maximum tracked by the downsampling scan (whose emitted extrema points carry
the pair (times[minIdx], values[minIdx]) and (times[maxIdx], values[maxIdx]))
are exactly the true minimum and maximum of the input values within that
bin, found at indices inside the bin. -/
theorem C7_bin_extrema_exact (values : List ℚ) (start e : Nat)
    (hse : start < e) (hlen : e ≤ values.length) :
    ((values.drop start).take (e - start)).minimum =
        ((binScan values start e).minVal : WithTop ℚ) ∧
      ((values.drop start).take (e - start)).maximum =
        ((binScan values start e).maxVal : WithBot ℚ) ∧
      start ≤ (binScan values start e).minIdx ∧ (binScan values start e).minIdx < e ∧
      start ≤ (binScan values start e).maxIdx ∧ (binScan values start e).maxIdx < e ∧
      values.getD (binScan values start e).minIdx 0 = (binScan values start e).minVal ∧
      values.getD (binScan values start e).maxIdx 0 = (binScan values start e).maxVal := by
  obtain ⟨hmin1, hmin2, hmin3, hmin4⟩ := binScan_min_facts values start e hse
  obtain ⟨hmax1, hmax2, hmax3, hmax4⟩ := binScan_max_facts values start e hse
  refine ⟨?_, ?_, hmin1, hmin2, hmax1, hmax2, hmin3, hmax3⟩
  · refine List.minimum_eq_coe_iff.mpr ⟨?_, ?_⟩
    · rw [← hmin3]
      exact bin_slice_mem values start e hlen _ hmin1 hmin2
    · intro a ha
      obtain ⟨j, hj1, hj2, rfl⟩ := bin_slice_elem_idx values start e hlen a ha
      exact hmin4 j hj1 hj2
  · refine List.maximum_eq_coe_iff.mpr ⟨?_, ?_⟩
    · rw [← hmax3]
      exact bin_slice_mem values start e hlen _ hmax1 hmax2
    · intro a ha
      obtain ⟨j, hj1, hj2, rfl⟩ := bin_slice_elem_idx values start e hlen a ha
      exact hmax4 j hj1 hj2

theorem C7_witness :
    ((([3, 1, 2] : List ℚ).drop 0).take (3 - 0)).minimum =
        ((binScan [3, 1, 2] 0 3).minVal : WithTop ℚ) ∧
      ((([3, 1, 2] : List ℚ).drop 0).take (3 - 0)).maximum =
        ((binScan [3, 1, 2] 0 3).maxVal : WithBot ℚ) ∧
      0 ≤ (binScan [3, 1, 2] 0 3).minIdx ∧ (binScan [3, 1, 2] 0 3).minIdx < 3 ∧
      0 ≤ (binScan [3, 1, 2] 0 3).maxIdx ∧ (binScan [3, 1, 2] 0 3).maxIdx < 3 ∧
      ([3, 1, 2] : List ℚ).getD (binScan [3, 1, 2] 0 3).minIdx 0 =
        (binScan [3, 1, 2] 0 3).minVal ∧
      ([3, 1, 2] : List ℚ).getD (binScan [3, 1, 2] 0 3).maxIdx 0 =
        (binScan [3, 1, 2] 0 3).maxVal :=
  C7_bin_extrema_exact [3, 1, 2] 0 3 (by norm_num) (by norm_num)

/-! Embedding of the fir package (reference synthesis, least squares,
filtering, resampling).  Every function of the package is total in Go:
there is no error return and no panic-guarded check anywhere in it. -/

/-- calculateMean: the loop sum divided by float64(len).  For the empty
list the Go quotient is 0/0 = NaN; here it is the rational 0. -/
def calculateMean (data : List ℚ) : ℚ :=
  data.foldl (· + ·) 0 / (data.length : ℚ)

/-- The high/low partition accumulators of generatePerfectSquareWave:
samples strictly above the mean feed the high sum and count, all others
the low sum and count. -/
structure SquareLevels where
  highSum : ℚ
  highCount : Nat
  lowSum : ℚ
  lowCount : Nat
deriving DecidableEq

def squareLevels (signal : List ℚ) (mean : ℚ) : SquareLevels :=
  signal.foldl
    (fun st v =>
      if mean < v then
        { st with highSum := st.highSum + v, highCount := st.highCount + 1 }
      else
        { st with lowSum := st.lowSum + v, lowCount := st.lowCount + 1 })
    { highSum := 0, highCount := 0, lowSum := 0, lowCount := 0 }

/-- generatePerfectSquareWave: the first half of the output carries the
high level when the first-half mean exceeds the overall mean, otherwise
the low level; each level is the mean of the samples on its side of the
overall mean.  An empty partition makes its level the Go quotient 0/0
(NaN); here that quotient is 0.  No error is ever returned. -/
def generatePerfectSquareWave (signal : List ℚ) : List ℚ :=
  let n := signal.length
  let mean := calculateMean signal
  let firstHalfMean := calculateMean (signal.take (n / 2))
  let levels := squareLevels signal mean
  let highValue := levels.highSum / (levels.highCount : ℚ)
  let lowValue := levels.lowSum / (levels.lowCount : ℚ)
  if mean < firstHalfMean then
    List.replicate (n / 2) highValue ++ List.replicate (n - n / 2) lowValue
  else
    List.replicate (n / 2) lowValue ++ List.replicate (n - n / 2) highValue

/-- roll: result[i] = data[(i+shift) mod n]. -/
def roll (data : List ℚ) (shift : Nat) : List ℚ :=
  (List.range data.length).map (fun i => data.getD ((i + shift) % data.length) 0)

/-- dotProduct: the loop ranges over the indices of the first argument. -/
def dotProduct (a b : List ℚ) : ℚ :=
  (List.range a.length).foldl (fun s i => s + a.getD i 0 * b.getD i 0) 0

/-- applyFIRFilter: filtered[i] is the dot product of the coefficients
with the signal cyclically shifted left by i. -/
def applyFIRFilter (signal coeffs : List ℚ) : List ℚ :=
  (List.range signal.length).map (fun i => dotProduct coeffs (roll signal i))

def transposeMatrix (m : List (List ℚ)) : List (List ℚ) :=
  (List.range (m.getD 0 []).length).map
    (fun i => (List.range m.length).map (fun j => (m.getD j []).getD i 0))

def matrixMultiply (a b : List (List ℚ)) : List (List ℚ) :=
  (List.range a.length).map
    (fun i =>
      (List.range (b.getD 0 []).length).map
        (fun j =>
          (List.range b.length).foldl
            (fun s k => s + (a.getD i []).getD k 0 * (b.getD k []).getD j 0) 0))

def matrixVectorMultiply (m : List (List ℚ)) (v : List ℚ) : List ℚ :=
  m.map (fun row => (List.range row.length).foldl (fun s j => s + row.getD j 0 * v.getD j 0) 0)

/-- The pivot-row normalisation of the forward elimination: entries from
column i on are divided by the pivot.  A zero pivot is not detected: in Go
the division yields Inf or NaN, here 0. -/
def divideRowFrom (row : List ℚ) (i : Nat) (pivot : ℚ) : List ℚ :=
  row.mapIdx (fun j a => if i ≤ j then a / pivot else a)

/-- Row elimination below the pivot: factor is the entry of the row in the
pivot column, read before the row is modified. -/
def eliminateRow (row pivotRow : List ℚ) (i : Nat) : List ℚ :=
  row.mapIdx (fun j a => if i ≤ j then a - row.getD i 0 * pivotRow.getD j 0 else a)

/-- One step of the forward elimination of solveLinearSystem at pivot
index i: normalise row i and b[i] by the pivot, then eliminate the pivot
column from every later row, with each factor read from the state before
this elimination. -/
def forwardStep (st : List (List ℚ) × List ℚ) (i : Nat) : List (List ℚ) × List ℚ :=
  let A := st.1
  let b := st.2
  let pivot := (A.getD i []).getD i 0
  let pivotRow := divideRowFrom (A.getD i []) i pivot
  let bi := b.getD i 0 / pivot
  ((A.set i pivotRow).mapIdx (fun k row => if i < k then eliminateRow row pivotRow i else row),
    (b.set i bi).mapIdx (fun k bk => if i < k then bk - (A.getD k []).getD i 0 * bi else bk))

/-- One step of the back substitution at row i:
x[i] = b[i] - sum of A[i][j] * x[j] over j = i+1, ..., n-1. -/
def backStep (A : List (List ℚ)) (b : List ℚ) (x : List ℚ) (i : Nat) : List ℚ :=
  x.set i
    ((List.range' (i + 1) (A.length - (i + 1))).foldl
      (fun s j => s - (A.getD i []).getD j 0 * x.getD j 0) (b.getD i 0))

/-- solveLinearSystem: Gaussian elimination without pivot-row swapping,
followed by back substitution.  The function is total: it always returns a
vector and never signals an error. -/
def solveLinearSystem (A : List (List ℚ)) (b : List ℚ) : List ℚ :=
  let n := A.length
  let fwd := (List.range n).foldl forwardStep (A, b)
  ((List.range n).reverse).foldl (backStep fwd.1 fwd.2) (List.replicate n 0)

/-- The regularized normal-equations matrix of regularizedLeastSquares:
AᵗA for the circulant matrix A of rolls of the measured signal, with
regParam times the mean diagonal entry added to every diagonal entry. -/
def normalMatrix (imperfect : List ℚ) (regParam : ℚ) : List (List ℚ) :=
  let n := imperfect.length
  let A := (List.range n).map (fun i => roll imperfect i)
  let ATA := matrixMultiply (transposeMatrix A) A
  let diagMean := ((List.range n).foldl (fun s i => s + (ATA.getD i []).getD i 0) 0) / (n : ℚ)
  ATA.mapIdx (fun i arow => arow.mapIdx (fun j v => if j = i then v + diagMean * regParam else v))

/-- The right-hand side Aᵗ·perfect of the normal equations. -/
def normalRhs (imperfect perfect : List ℚ) : List ℚ :=
  let n := imperfect.length
  let A := (List.range n).map (fun i => roll imperfect i)
  matrixVectorMultiply (transposeMatrix A) perfect

/-- regularizedLeastSquares: build the regularized normal equations and
solve them by Gaussian elimination. -/
def regularizedLeastSquares (imperfect perfect : List ℚ) (regParam : ℚ) : List ℚ :=
  solveLinearSystem (normalMatrix imperfect regParam) (normalRhs imperfect perfect)

/-! Claim C5: degenerate signals and generatePerfectSquareWave. -/

/-- Claim C5, counterexample: the constant signal [1, 1] has every sample
on one side of its mean (the high partition is empty, its count is 0), yet
generatePerfectSquareWave returns a 2-element waveform instead of failing
with DegenerateSignalError: the Go code divides by the zero count, places
NaN in the empty-partition level, and returns the slice.  No error value
exists in the function. -/
theorem C5_counterexample :
    (squareLevels [1, 1] (calculateMean [1, 1])).highCount = 0 ∧
      (generatePerfectSquareWave [1, 1]).length = 2 := by
  with_unfolding_all decide

/-- Claim C5, amended: generatePerfectSquareWave never fails; for every
signal, including degenerate ones whose samples all lie on one side of the
mean, it returns a waveform of the input length in which the level of an
empty partition is the indeterminate quotient 0/0 (NaN in Go). -/
theorem C5_always_returns (signal : List ℚ) :
    (generatePerfectSquareWave signal).length = signal.length := by
  simp only [generatePerfectSquareWave]
  split <;>
    · simp only [List.length_append, List.length_replicate]
      omega

/-! Claim C4: zero pivots and the Gaussian-elimination solve. -/

theorem backStep_fold_length (A : List (List ℚ)) (b : List ℚ) :
    ∀ (L : List Nat) (x : List ℚ), (L.foldl (backStep A b) x).length = x.length := by
  intro L
  induction L with
  | nil => intro x; rfl
  | cons i L ih =>
      intro x
      rw [List.foldl_cons, ih, backStep, List.length_set]

theorem solveLinearSystem_length (A : List (List ℚ)) (b : List ℚ) :
    (solveLinearSystem A b).length = A.length := by
  simp only [solveLinearSystem]
  rw [backStep_fold_length, List.length_replicate]

theorem roll_length (data : List ℚ) (shift : Nat) : (roll data shift).length = data.length := by
  simp [roll]

theorem normalMatrix_length (imperfect : List ℚ) (regParam : ℚ) :
    (normalMatrix imperfect regParam).length = imperfect.length := by
  simp only [normalMatrix, matrixMultiply, transposeMatrix, List.length_mapIdx,
    List.length_map, List.length_range]
  cases imperfect with
  | nil => simp
  | cons v rest =>
      simp [List.getD_cons_zero, roll_length]

/-- Claim C4, counterexample: for measured = [0], reference = [1] and
regularization 0 the regularized normal-equations matrix is [[0]], so the
single diagonal pivot is zero, yet the solve does not fail with
SingularSystemError: it returns a length-1 coefficient vector (whose entry
is NaN in Go, where the divisions by the zero pivot yield non-finite
values; the solve has no error path at all). -/
theorem C4_counterexample :
    normalMatrix [0] 0 = [[0]] ∧ (regularizedLeastSquares [0] [1] 0).length = 1 := by
  with_unfolding_all decide

/-- Claim C4, amended: the solve performs no pivot-row swapping and never
fails: for every measured and reference input and every regularization,
regularizedLeastSquares returns a coefficient vector of the input length
even when a diagonal pivot entry of the regularized matrix is zero (the
divisions by a zero pivot silently propagate non-finite values in Go). -/
theorem C4_solve_always_returns (imperfect perfect : List ℚ) (regParam : ℚ) :
    (regularizedLeastSquares imperfect perfect regParam).length = imperfect.length := by
  rw [regularizedLeastSquares, solveLinearSystem_length, normalMatrix_length]

/-! Claim C6: applyFIRFilter computes the circular dot products. -/

theorem getD_map_range {α : Type} (f : Nat → α) (d : α) (n i : Nat) (h : i < n) :
    ((List.range n).map f).getD i d = f i := by
  rw [List.getD_eq_getElem?_getD, List.getElem?_map, List.getElem?_range h]
  rfl

theorem foldl_add_range (f : Nat → ℚ) :
    ∀ (n : Nat) (c : ℚ),
      (List.range n).foldl (fun s j => s + f j) c = c + ∑ j ∈ Finset.range n, f j := by
  intro n
  induction n with
  | zero => intro c; simp
  | succ n ih =>
      intro c
      rw [List.range_succ, List.foldl_append, List.foldl_cons, List.foldl_nil, ih,
        Finset.sum_range_succ, add_assoc]

theorem roll_getD (data : List ℚ) (shift i : Nat) (h : i < data.length) :
    (roll data shift).getD i 0 = data.getD ((i + shift) % data.length) 0 := by
  rw [roll, getD_map_range _ _ _ _ h]

/-- Claim C6: for equal-length signal and coefficient sequences of length
N and every index i below N, applyFIRFilter returns at position i the dot
product of the coefficients with the signal cyclically shifted left by i,
that is, the sum over j of coeffs[j] * signal[(j+i) mod N]. -/
theorem C6_circular_convolution (signal coeffs : List ℚ) (i : Nat)
    (hlen : coeffs.length = signal.length) (hi : i < signal.length) :
    (applyFIRFilter signal coeffs).getD i 0 =
      ∑ j ∈ Finset.range signal.length,
        coeffs.getD j 0 * signal.getD ((j + i) % signal.length) 0 := by
  rw [applyFIRFilter, getD_map_range _ _ _ _ hi, dotProduct, hlen, foldl_add_range, zero_add]
  refine Finset.sum_congr rfl ?_
  intro j hj
  rw [roll_getD signal i j (Finset.mem_range.mp hj)]

theorem C6_witness :
    (applyFIRFilter [1, 2] [3, 4]).getD 1 0 =
      ∑ j ∈ Finset.range ([1, 2] : List ℚ).length,
        ([3, 4] : List ℚ).getD j 0 * ([1, 2] : List ℚ).getD ((j + 1) % ([1, 2] : List ℚ).length) 0 :=
  C6_circular_convolution [1, 2] [3, 4] 1 (by rfl) (by norm_num)

/-! Embedding of resample from the fir package (claim C9).  Slice reads
are modelled with an Option: an out-of-range index, which panics at run
time in Go, yields none; every in-range run yields some result.  The Go
conversion int(pos) truncates toward zero. -/

/-- Go integer truncation of a float: toward zero. -/
def goTrunc (q : ℚ) : Int :=
  if 0 ≤ q then Int.floor q else -Int.floor (-q)

/-- A Go slice read at a possibly out-of-range signed index: none models
the runtime panic. -/
def listGetZ (data : List ℚ) (i : Int) : Option ℚ :=
  if 0 ≤ i then data[i.toNat]? else none

/-- The body of the resample loop at output index i: position i*ratio with
ratio (len-1)/(newLen-1) is split into integer part idx and fraction,
interpolating data[idx] and data[idx+1] when the right neighbour exists
and clamping to data[idx] otherwise. -/
def resampleAt (data : List ℚ) (newLen : Nat) (i : Nat) : Option ℚ :=
  let ratio : ℚ := ((data.length : ℚ) - 1) / ((newLen : ℚ) - 1)
  let pos : ℚ := (i : ℚ) * ratio
  let idx : Int := goTrunc pos
  let frac : ℚ := pos - (idx : ℚ)
  if idx + 1 < (data.length : Int) then
    (listGetZ data idx).bind
      (fun a => (listGetZ data (idx + 1)).map (fun b => a * (1 - frac) + b * frac))
  else listGetZ data idx

/-- resample: linear interpolation of data onto newLen points.  The ratio
of the source is computed once before the loop; resampleAt recomputes the
identical value at each index. -/
def resample (data : List ℚ) (newLen : Nat) : Option (List ℚ) :=
  (List.range newLen).mapM (resampleAt data newLen)

theorem mapM_const_some {α : Type} (v : α) :
    ∀ (L : List Nat) (g : Nat → Option α), (∀ x ∈ L, g x = some v) →
      L.mapM g = some (List.replicate L.length v) := by
  intro L
  induction L with
  | nil => intro g _; rfl
  | cons x L ih =>
      intro g hg
      rw [List.mapM_cons, hg x (List.mem_cons_self x L), ih g (fun y hy => hg y (List.mem_cons_of_mem x hy))]
      rfl

/-- Claim C9, counterexample: resampling the length-1 source [5] to 3
points silently succeeds with [5, 5, 5]; no InsufficientDataError (or any
error) is raised for a short source. -/
theorem C9_counterexample : resample [(5 : ℚ)] 3 = some [5, 5, 5] := by
  with_unfolding_all decide

/-- Claim C9, amended: for every targetLength of at least 2, resampling a
length-1 source silently succeeds and returns targetLength copies of the
single sample, and resampling a zero-length source fails only through an
out-of-range slice read (a runtime panic in Go, none in this model) — in
neither case is an InsufficientDataError produced. -/
theorem resampleAt_singleton (v : ℚ) (n i : Nat) : resampleAt [v] n i = some v := by
  simp only [resampleAt, List.length_singleton, Nat.cast_one]
  norm_num
  rw [show goTrunc 0 = 0 by rw [goTrunc]; norm_num]
  norm_num [listGetZ]

theorem resampleAt_nil_zero (n : Nat) : resampleAt [] n 0 = none := by
  simp only [resampleAt, List.length_nil, Nat.cast_zero, Nat.cast_zero]
  norm_num
  rw [show goTrunc 0 = 0 by rw [goTrunc]; norm_num]
  norm_num [listGetZ]

/-- Claim C9, amended: for every targetLength of at least 2, resampling a
length-1 source silently succeeds and returns targetLength copies of the
single sample, and resampling a zero-length source fails only through an
out-of-range slice read (a runtime panic in Go, none in this model) — in
neither case is an InsufficientDataError produced. -/
theorem C9_short_sources (v : ℚ) (n : Nat) (hn : 2 ≤ n) :
    resample [v] n = some (List.replicate n v) ∧ resample ([] : List ℚ) n = none := by
  constructor
  · rw [resample,
      mapM_const_some v (List.range n) (resampleAt [v] n)
        (fun x _ => resampleAt_singleton v n x),
      List.length_range]
  · rw [resample]
    obtain ⟨m, rfl⟩ : ∃ m, n = m + 1 := ⟨n - 1, by omega⟩
    rw [List.range_succ_eq_map, List.mapM_cons, resampleAt_nil_zero]
    rfl

theorem C9_witness :
    resample [(5 : ℚ)] 3 = some (List.replicate 3 5) ∧ resample ([] : List ℚ) 3 = none :=
  C9_short_sources 5 3 (by norm_num)

/-! Embedding of the fft package (ComputeFFT).  The transcendental parts —
the cosine of the Blackman window, the magnitudes of the transform
coefficients, and the base-10 logarithm — cannot be rational functions;
they are taken as explicit function parameters, and every statement below
holds for every choice of them.  The parameter cos2pi models t mapsto
cos(2 pi t), cos4pi models t mapsto cos(4 pi t), dftAbs models the
magnitude cmplx.Abs of the transform coefficient at a given index of a
given windowed input, and log10 models math.Log10. -/

/-- The fixed transform size of ComputeFFT. -/
def fftSize : Nat := 65536

/-- The dB floor MinMagnitude of the fft package. -/
def MinMagnitude : ℚ := -120

/-- The bin-to-frequency convention of the transform library (gonum
fourier FFT.Freq, external to this repository): the relative frequency of
coefficient i of an n-point real transform, i/n, lying in [0, 1/2] for
the retained coefficients. -/
def gonumFreq (n i : Nat) : ℚ :=
  (i : ℚ) / (n : ℚ)

/-- The frequency axis of ComputeFFT: Freq(i) scaled by sampleRate/2 over
the retained bins 0, ..., fftSize/2. -/
def fftFrequencies (sampleRate : ℚ) : List ℚ :=
  (List.range (fftSize / 2 + 1)).map (fun i => gonumFreq fftSize i * (sampleRate / 2))

/-- The Blackman window coefficient at index i of an n-point window, with
the float literals 0.42, 0.5, 0.08 as exact rationals:
0.42 - 0.5 cos(2 pi t) + 0.08 cos(4 pi t) at t = i/(n-1). -/
def blackmanWindow (cos2pi cos4pi : ℚ → ℚ) (n i : Nat) : ℚ :=
  42 / 100 - 5 / 10 * cos2pi ((i : ℚ) / ((n : ℚ) - 1)) +
    8 / 100 * cos4pi ((i : ℚ) / ((n : ℚ) - 1))

structure FFTResult where
  frequencies : List ℚ
  magnitudes : List ℚ
  harmonics : List (List ℚ)
  sampleRate : ℚ

/-- ComputeFFT: fails only on empty input; otherwise centres the data by
its mean into a zero-padded (or silently truncated) fftSize buffer,
applies the Blackman window while accumulating the window sum, keeps the
bins up to Nyquist, corrects each magnitude by windowCorrection/fftSize,
doubles all bins but the first and last, converts to dB against the
original signal scale with floor MinMagnitude, and returns the result with
a literally empty harmonics list — findPeaksWithFundamental is never
called. -/
def ComputeFFT (dftAbs : List ℚ → Nat → ℚ) (cos2pi cos4pi log10 : ℚ → ℚ)
    (data : List ℚ) (sampleRate : ℚ) : Option FFTResult :=
  if data.length = 0 then none
  else
    let maxAbs := data.foldl (fun m v => max m |v|) 0
    let mean := data.foldl (· + ·) 0 / (data.length : ℚ)
    let scale := maxAbs
    let input := (List.range fftSize).map
      (fun i => if i < data.length then data.getD i 0 - mean else 0)
    let windowSum := (List.range fftSize).foldl
      (fun s i => s + blackmanWindow cos2pi cos4pi fftSize i) 0
    let windowed := input.mapIdx (fun i v => v * blackmanWindow cos2pi cos4pi fftSize i)
    let numFreqs := fftSize / 2 + 1
    let windowCorrection := (fftSize : ℚ) / windowSum
    let magnitudes := (List.range numFreqs).map
      (fun i =>
        let magnitude := dftAbs windowed i * (windowCorrection / (fftSize : ℚ))
        let magnitude := if 0 < i ∧ i < numFreqs - 1 then magnitude * 2 else magnitude
        let power := magnitude * scale
        if 0 < power then 20 * log10 power else MinMagnitude)
    some { frequencies := fftFrequencies sampleRate, magnitudes := magnitudes,
           harmonics := [], sampleRate := sampleRate }

/-- Claim C8: the bin frequencies are Freq(i) * (sampleRate/2) =
(i/fftSize) * (sampleRate/2), so bin 0 maps to 0 Hz, but the last retained
bin fftSize/2 maps to sampleRate/4 — half the Nyquist frequency the
specification requires.  Evaluated at the sample rate 51200 hard-wired in
backend/main.go: the last bin reads 12800 Hz instead of the Nyquist
25600 Hz. -/
theorem C8_frequency_axis :
    (fftFrequencies 51200).getD 0 0 = 0 ∧
      (fftFrequencies 51200).getD (fftSize / 2) 0 = 12800 ∧
      (51200 : ℚ) / 2 = 25600 ∧ (12800 : ℚ) ≠ 25600 := by
  refine ⟨?_, ?_, by norm_num, by norm_num⟩
  · rw [fftFrequencies, getD_map_range _ _ _ 0 (by norm_num)]
    norm_num [gonumFreq]
  · rw [fftFrequencies, getD_map_range _ _ _ (fftSize / 2) (by norm_num)]
    norm_num [gonumFreq, fftSize]

/-- Claim C10: for every non-empty input buffer and every sample rate (and
every interpretation of the transcendental parameters), ComputeFFT
succeeds and its Harmonics field is the empty list:
findPeaksWithFundamental is never invoked. -/
theorem C10_harmonics_empty (dftAbs : List ℚ → Nat → ℚ) (cos2pi cos4pi log10 : ℚ → ℚ)
    (data : List ℚ) (sampleRate : ℚ) (h : data ≠ []) :
    (ComputeFFT dftAbs cos2pi cos4pi log10 data sampleRate).map FFTResult.harmonics =
      some [] := by
  rw [ComputeFFT, if_neg (by simpa using h)]
  rfl

theorem C10_witness :
    (ComputeFFT (fun _ _ => 0) (fun _ => 0) (fun _ => 0) (fun _ => 0) [1] 51200).map
        FFTResult.harmonics = some [] :=
  C10_harmonics_empty (fun _ _ => 0) (fun _ => 0) (fun _ => 0) (fun _ => 0) [1] 51200
    (by simp)

end Novacal
